import Mathlib

/-!
Shallow embedding of `simple_markdown_to_html` from
`src/application/openrouter_client.py` (lines 230–327), the line-oriented
Markdown-to-HTML converter, together with theorems settling the frozen
claims about it.

Python strings are modelled as `List Char` (code points, as Python indexes
them); `str.split('\n')` is `List.splitOn '\n'`, `'\n'.join` is
`List.intercalate`, `str.startswith` is `List.isPrefixOf`,
`str.replace(a, b)` on a single-character needle is a flat-map,
`str.replace(a, b, 1)` is `replace1`, and the link rewriting
`re.sub(r'\[([^\]]+)\]\(([^)]+)\)', r'<a href="\2">\1</a>', s)` is
`linkSub` (the pattern is deterministic: the character classes exclude the
closing delimiters, so greedy matching finds the first closer).
-/

/-- The exact codepoints for which Python `str.isspace()` is true (CPython
3.11 Unicode data): ASCII whitespace, the C0 information separators, NEL,
NBSP and the Unicode Zs/Zl/Zp spaces.  `str.strip()` strips this set. -/
def pySpaceCodes : List Nat :=
  [9, 10, 11, 12, 13, 28, 29, 30, 31, 32, 133, 160, 5760, 8192, 8193, 8194,
   8195, 8196, 8197, 8198, 8199, 8200, 8201, 8202, 8232, 8233, 8239, 8287,
   12288]

/-- Python `str.isspace` on one character. -/
def pySpace (c : Char) : Bool := pySpaceCodes.contains c.val.toNat

/-- The closed codepoint ranges for which Python `str.isdigit()` is true
(CPython 3.11 Unicode data): every script's decimal digits plus the
Numeric_Type=Digit characters (superscripts such as `²`, circled digits,
etc.). -/
def pyDigitRanges : List (Nat × Nat) :=
  [(48, 57), (178, 179), (185, 185), (1632, 1641), (1776, 1785),
   (1984, 1993), (2406, 2415), (2534, 2543), (2662, 2671), (2790, 2799),
   (2918, 2927), (3046, 3055), (3174, 3183), (3302, 3311), (3430, 3439),
   (3558, 3567), (3664, 3673), (3792, 3801), (3872, 3881), (4160, 4169),
   (4240, 4249), (4969, 4977), (6112, 6121), (6160, 6169), (6470, 6479),
   (6608, 6618), (6784, 6793), (6800, 6809), (6992, 7001), (7088, 7097),
   (7232, 7241), (7248, 7257), (8304, 8304), (8308, 8313), (8320, 8329),
   (9312, 9320), (9332, 9340), (9352, 9360), (9450, 9450), (9461, 9469),
   (9471, 9471), (10102, 10110), (10112, 10120), (10122, 10130),
   (42528, 42537), (43216, 43225), (43264, 43273), (43472, 43481),
   (43504, 43513), (43600, 43609), (44016, 44025), (65296, 65305),
   (66720, 66729), (68160, 68163), (68912, 68921), (69216, 69224),
   (69714, 69722), (69734, 69743), (69872, 69881), (69942, 69951),
   (70096, 70105), (70384, 70393), (70736, 70745), (70864, 70873),
   (71248, 71257), (71360, 71369), (71472, 71481), (71904, 71913),
   (72016, 72025), (72784, 72793), (73040, 73049), (73120, 73129),
   (92768, 92777), (92864, 92873), (93008, 93017), (120782, 120831),
   (123200, 123209), (123632, 123641), (125264, 125273), (127232, 127242),
   (130032, 130041)]

/-- Python `str.isdigit` on a codepoint. -/
def pyIsDigitCode (n : Nat) : Bool :=
  pyDigitRanges.any (fun p => decide (p.1 ≤ n) && decide (n ≤ p.2))

/-- Python `str.isdigit` on one character (`line[0].isdigit()`, source
line 283): true on Unicode digits such as `²`, not only ASCII `0`–`9`. -/
def pyIsDigit (c : Char) : Bool := pyIsDigitCode c.val.toNat

/-- Python `str.strip()`: drop whitespace from both ends. -/
def pyStrip (l : List Char) : List Char :=
  ((l.dropWhile pySpace).reverse.dropWhile pySpace).reverse

/-- Python `s.replace(old, new)` for a single-character `old`: every
occurrence is replaced, and replacement text is never rescanned. -/
def pyReplaceChar (old : Char) (new : List Char) (s : List Char) : List Char :=
  s.flatMap (fun c => if c = old then new else [c])

/-- `line.replace('&', '&amp;').replace('<', '&lt;').replace('>', '&gt;')`
applied to fenced-code content (source line 255), in that order. -/
def escapeHtml (l : List Char) : List Char :=
  pyReplaceChar '>' "&gt;".data
    (pyReplaceChar '<' "&lt;".data
      (pyReplaceChar '&' "&amp;".data l))

/-- Python `s.replace(old, new, 1)`: replace the first occurrence of `old`
only (`"".replace("", n, 1) = n`, matching Python's empty-needle case). -/
def replace1 (old new : List Char) : List Char → List Char
  | [] => if List.isPrefixOf old [] then new else []
  | c :: rest =>
    if List.isPrefixOf old (c :: rest) then new ++ (c :: rest).drop old.length
    else c :: replace1 old new rest

/-- Attempt to match the regex `\[([^\]]+)\]\(([^)]+)\)` with the leading
`[` already consumed: the text runs to the first `]` (nonempty), which must
be followed by `(`; the url runs to the first `)` (nonempty).  Returns the
captured text, the captured url and the remainder after the match. -/
def matchLink (rest : List Char) : Option (List Char × List Char × List Char) :=
  let text := rest.takeWhile (fun c => c != ']')
  match rest.dropWhile (fun c => c != ']') with
  | ']' :: '(' :: r2 =>
    let url := r2.takeWhile (fun c => c != ')')
    match r2.dropWhile (fun c => c != ')') with
    | ')' :: r4 => if text = [] ∨ url = [] then none else some (text, url, r4)
    | _ => none
  | _ => none

/-- The regex replacement template `<a href="\2">\1</a>`. -/
def anchorOf (text url : List Char) : List Char :=
  "<a href=\"".data ++ url ++ "\">".data ++ text ++ "</a>".data

theorem matchLink_length {rest t u r : List Char}
    (h : matchLink rest = some (t, u, r)) : r.length + 3 ≤ rest.length := by
  unfold matchLink at h
  split at h
  next r2 heq =>
    split at h
    next r4 heq2 =>
      dsimp only at h
      split at h
      · exact absurd h (by simp)
      · have h1 : (rest.dropWhile (fun c => c != ']')).length ≤ rest.length :=
          List.Sublist.length_le (List.dropWhile_sublist _)
        have h2 : (r2.dropWhile (fun c => c != ')')).length ≤ r2.length :=
          List.Sublist.length_le (List.dropWhile_sublist _)
        rw [heq] at h1
        rw [heq2] at h2
        simp only [List.length_cons] at h1 h2
        simp only [Option.some.injEq, Prod.mk.injEq] at h
        have hv : r4 = r := h.2.2
        subst hv
        omega
    · exact absurd h (by simp)
  · exact absurd h (by simp)

/-- Fuelled scanner for `re.sub(r'\[([^\]]+)\]\(([^)]+)\)',
r'<a href="\2">\1</a>', s)` (source line 308): scan left to right; at each
`[` try the (deterministic) match; on success emit the anchor and continue
after the match, otherwise copy the character and continue.  The fuel only
makes the recursion structural; it never runs out when it starts at the
length of the input (`linkSubF_fuel`). -/
def linkSubF : Nat → List Char → List Char
  | _, [] => []
  | 0, s => s
  | fuel + 1, c :: rest =>
    match (if c = '[' then matchLink rest else none) with
    | some (text, url, r4) => anchorOf text url ++ linkSubF fuel r4
    | none => c :: linkSubF fuel rest

/-- The link substitution of source line 308. -/
def linkSub (s : List Char) : List Char := linkSubF s.length s

theorem linkSubF_fuel :
    ∀ (f1 : Nat) (s : List Char) (f2 : Nat), s.length ≤ f1 → s.length ≤ f2 →
      linkSubF f1 s = linkSubF f2 s := by
  intro f1
  induction f1 with
  | zero =>
    intro s f2 h1 _
    have : s = [] := List.length_eq_zero.mp (Nat.le_zero.mp h1)
    subst this
    cases f2 <;> rfl
  | succ f ih =>
    intro s f2 h1 h2
    match s, f2 with
    | [], _ => simp [ linkSubF]
    | c :: rest, 0 => simp at h2
    | c :: rest, g + 1 =>
      simp only [linkSubF]
      simp only [List.length_cons, Nat.succ_le_succ_iff] at h1 h2
      cases hm : (if c = '[' then matchLink rest else none) with
      | some v =>
        obtain ⟨t, u, r4⟩ := v
        have hr : r4.length + 3 ≤ rest.length := by
          by_cases hc : c = '['
          · simp only [hc, if_pos] at hm
            exact matchLink_length hm
          · simp [hc] at hm
        dsimp only
        rw [ih r4 g (by omega) (by omega)]
      | none =>
        dsimp only
        rw [ih rest g h1 h2]

/-- The inline-formatting pipeline of the default case (source lines
299–308): one bold pair, then one italic pair, then global link rewriting. -/
def fmtInline (line : List Char) : List Char :=
  linkSub
    (replace1 "*".data "</em>".data
      (replace1 "*".data "<em>".data
        (replace1 "**".data "</strong>".data
          (replace1 "**".data "<strong>".data line))))

/-- `line.startswith('```')` (source line 240). -/
def isFence (l : List Char) : Bool := List.isPrefixOf "```".data l

/-- `line.startswith('- ')` (source lines 271, 273, 279). -/
def isUnordered (l : List Char) : Bool := List.isPrefixOf "- ".data l

/-- `line.strip() and line[0].isdigit() and line[1:].startswith('. ')`
(source lines 283, 285, 291). -/
def isOrdered (l : List Char) : Bool :=
  decide (pyStrip l ≠ []) &&
    (match l with
     | d :: rest => pyIsDigit d && List.isPrefixOf ". ".data rest
     | [] => false)

/-- `line[line.find('.')+2:]` (source line 288): content after the first
`.` and the following separator position. -/
def olContent (l : List Char) : List Char :=
  l.drop ((l.takeWhile (fun c => c != '.')).length + 2)

/-- The seven pass-through tags checked by the paragraph-wrapping guard
(source line 315). -/
def blockTags : List (List Char) :=
  ["<h1>".data, "<h2>".data, "<h3>".data, "<h4>".data,
   "<ul>".data, "<ol>".data, "<li>".data]

/-- `any(tag in formatted_line for tag in [...])` (source line 315). -/
def hasBlockTag (l : List Char) : Bool :=
  blockTags.any (fun t => decide (t <:+: l))

/-- The single fragment emitted for a non-blank default line: the formatted
line, paragraph-wrapped unless it already contains a block tag. -/
def defaultFrag (line : List Char) : List Char :=
  if hasBlockTag (fmtInline line) then fmtInline line
  else "<p>".data ++ fmtInline line ++ "</p>".data

def optHolds (f : List Char → Bool) : Option (List Char) → Bool
  | none => false
  | some l => f l

/-- The fragments emitted for one line outside a code block that is not a
fence delimiter (source lines 261–318).  `prev` is the raw previous line
(`lines[i-1]`, `none` when `i == 0`) and `next` the raw next line
(`lines[i+1]`, `none` when `i == len(lines)-1`). -/
def processLine (prev : Option (List Char)) (line : List Char)
    (next : Option (List Char)) : List (List Char) :=
  if List.isPrefixOf "# ".data line then
    ["<h1>".data ++ line.drop 2 ++ "</h1>".data]
  else if List.isPrefixOf "## ".data line then
    ["<h2>".data ++ line.drop 3 ++ "</h2>".data]
  else if List.isPrefixOf "### ".data line then
    ["<h3>".data ++ line.drop 4 ++ "</h3>".data]
  else if List.isPrefixOf "#### ".data line then
    ["<h4>".data ++ line.drop 5 ++ "</h4>".data]
  else if isUnordered line then
    (if optHolds isUnordered prev then [] else ["<ul>".data]) ++
    ["<li>".data ++ line.drop 2 ++ "</li>".data] ++
    (if optHolds isUnordered next then [] else ["</ul>".data])
  else if isOrdered line then
    (if optHolds isOrdered prev then [] else ["<ol>".data]) ++
    ["<li>".data ++ olContent line ++ "</li>".data] ++
    (if optHolds isOrdered next then [] else ["</ol>".data])
  else if pyStrip line = [] then ["<br>".data]
  else [defaultFrag line]

/-- `'<pre><code class="language-{0}">'.format(language)` with
`language = line[3:].strip()` (source lines 243–244). -/
def codeOpen (lang : List Char) : List Char :=
  "<pre><code class=\"language-".data ++ lang ++ "\">".data

/-- `'</code></pre>'` (source lines 248, 324). -/
def codeClose : List Char := "</code></pre>".data

/-- The main loop (source lines 236–324) plus the trailing force-close of an
unterminated fence: processes the raw lines in order, threading the previous
raw line and the `in_code_block` flag. -/
def convertLines : Option (List Char) → Bool → List (List Char) → List (List Char)
  | _, inCode, [] => if inCode then [codeClose] else []
  | prev, inCode, line :: rest =>
    if isFence line then
      (if inCode then codeClose else codeOpen (pyStrip (line.drop 3))) ::
        convertLines (some line) (!inCode) rest
    else if inCode then
      escapeHtml line :: convertLines (some line) true rest
    else
      processLine prev line rest.head? ++ convertLines (some line) false rest

/-- `simple_markdown_to_html` (source lines 230–327): split on newlines,
process every line, join with newlines. -/
def simple_markdown_to_html (text : String) : String :=
  ⟨List.intercalate "\n".data (convertLines none false (text.data.splitOn '\n'))⟩

/-! ### Stepping lemmas for the link scanner -/

theorem linkSub_nil : linkSub [] = [] := rfl

theorem linkSub_cons_some {rest t u r : List Char}
    (h : matchLink rest = some (t, u, r)) :
    linkSub ('[' :: rest) = anchorOf t u ++ linkSub r := by
  have hlen := matchLink_length h
  simp only [linkSub, List.length_cons, linkSubF]
  rw [if_pos trivial, h]
  dsimp only
  rw [linkSubF_fuel rest.length r r.length (by omega) (Nat.le_refl _)]

theorem linkSub_cons_none {c : Char} {rest : List Char}
    (h : c = '[' → matchLink rest = none) :
    linkSub (c :: rest) = c :: linkSub rest := by
  simp only [linkSub, List.length_cons, linkSubF]
  have hif : (if c = '[' then matchLink rest else none) = none := by
    by_cases hc : c = '['
    · rw [if_pos hc]; exact h hc
    · exact if_neg hc
  rw [hif]

theorem linkSub_cons_of_ne {c : Char} {rest : List Char} (h : c ≠ '[') :
    linkSub (c :: rest) = c :: linkSub rest :=
  linkSub_cons_none (fun hc => absurd hc h)

example : simple_markdown_to_html "" = "<br>" := by decide
example : simple_markdown_to_html "# Title" = "<h1>Title</h1>" := by decide
example : simple_markdown_to_html "- a\n- b\n- c" =
    "<ul>\n<li>a</li>\n<li>b</li>\n<li>c</li>\n</ul>" := by decide
example : simple_markdown_to_html "**bold** and **more**" =
    "<p><strong>bold</strong> and <em></em>more**</p>" := by decide
example : simple_markdown_to_html "```python\na<b" =
    "<pre><code class=\"language-python\">\na&lt;b\n</code></pre>" := by decide
example : simple_markdown_to_html "[go](http://example.com)" =
    "<p><a href=\"http://example.com\">go</a></p>" := by decide
example : simple_markdown_to_html "##### X" = "<p>##### X</p>" := by decide
example : simple_markdown_to_html "1. x\n2. y" =
    "<ol>\n<li>x</li>\n<li>y</li>\n</ol>" := by decide

/-! ### C1: two bold spans on one line -/

/-- C1 counterexample: on the line `**bold** and **more**` the remaining two
`**` occurrences are NOT left as literal characters — the italic pass turns
the first two leftover `*` into an empty emphasis pair, so only two `*`
characters survive (the claim would leave four) and the literal `**more**`
is gone from the output. -/
theorem C1_counterexample :
    simple_markdown_to_html "**bold** and **more**" =
      "<p><strong>bold</strong> and <em></em>more**</p>" ∧
    (simple_markdown_to_html "**bold** and **more**").data.count '*' = 2 ∧
    ¬ ("**more**".data <:+: (simple_markdown_to_html "**bold** and **more**").data) := by
  refine ⟨by decide, by decide, by decide⟩

/-- C1 amended: on the line `**bold** and **more**` the first `**` pair does
become an opening and a closing strong tag, but the remaining `**`
occurrences are not all left literal: the subsequent italic substitution
converts the first two leftover `*` characters into an empty `<em></em>`
pair, leaving only the final `**` as literal characters. -/
theorem C1_two_bold_spans :
    simple_markdown_to_html "**bold** and **more**" =
      "<p><strong>bold</strong> and <em></em>more**</p>" := by decide

/-! ### Classification helper lemmas -/

theorem ne_of_pyIsDigit {d c : Char} (h : pyIsDigit d = true)
    (hc : pyIsDigit c = false) : d ≠ c := by
  intro he
  rw [he, hc] at h
  exact absurd h (by simp)

/-- No Python whitespace character is a Python digit, so a digit-headed
line never strips to empty. -/
theorem pySpace_of_pyIsDigit {d : Char} (h : pyIsDigit d = true) :
    pySpace d = false := by
  cases hx : pySpace d
  · rfl
  · exfalso
    have hmem : d.val.toNat ∈ pySpaceCodes := by
      rw [pySpace, List.contains_iff_exists_mem_beq] at hx
      obtain ⟨b, hb, hbeq⟩ := hx
      exact (beq_iff_eq.mp hbeq) ▸ hb
    have hall : ∀ n ∈ pySpaceCodes, pyIsDigitCode n = false := by decide
    have hz := hall _ hmem
    rw [pyIsDigit, hz] at h
    exact absurd h (by simp)

theorem pyStrip_cons_ne_nil {c : Char} {l : List Char} (h : pySpace c = false) :
    pyStrip (c :: l) ≠ [] := by
  unfold pyStrip
  intro hcontra
  rw [List.reverse_eq_nil_iff, List.dropWhile_eq_nil_iff] at hcontra
  have hdw : List.dropWhile pySpace (c :: l) = c :: l :=
    List.dropWhile_cons_of_neg (by simp [h])
  rw [hdw] at hcontra
  have := hcontra c (by simp)
  rw [h] at this
  exact absurd this (by simp)

theorem isPrefixOf_cons_ne {a c : Char} {pat l : List Char} (h : a ≠ c) :
    List.isPrefixOf (a :: pat) (c :: l) = false := by
  simp only [List.isPrefixOf, Bool.and_eq_false_iff]
  exact Or.inl (beq_eq_false_iff_ne.mpr h)

theorem isOrdered_cons_digit {d : Char} {t : List Char} (hd : pyIsDigit d = true) :
    isOrdered (d :: '.' :: ' ' :: t) = true := by
  unfold isOrdered
  have h1 : pyStrip (d :: '.' :: ' ' :: t) ≠ [] :=
    pyStrip_cons_ne_nil (pySpace_of_pyIsDigit hd)
  simp [h1, hd, List.isPrefixOf]

theorem olContent_cons {d : Char} {t : List Char} (hd : d ≠ '.') :
    olContent (d :: '.' :: ' ' :: t) = t := by
  unfold olContent
  have h1 : (d != '.') = true := bne_iff_ne.mpr hd
  simp [List.takeWhile, h1]

theorem processLine_ol {prev next : Option (List Char)} {d : Char} {t : List Char}
    (hd : pyIsDigit d = true) :
    processLine prev (d :: '.' :: ' ' :: t) next =
      (if optHolds isOrdered prev then [] else ["<ol>".data]) ++
      ["<li>".data ++ t ++ "</li>".data] ++
      (if optHolds isOrdered next then [] else ["</ol>".data]) := by
  have hhash : List.isPrefixOf "# ".data (d :: '.' :: ' ' :: t) = false :=
    isPrefixOf_cons_ne (Ne.symm (ne_of_pyIsDigit hd (by decide)))
  have hhash2 : List.isPrefixOf "## ".data (d :: '.' :: ' ' :: t) = false :=
    isPrefixOf_cons_ne (Ne.symm (ne_of_pyIsDigit hd (by decide)))
  have hhash3 : List.isPrefixOf "### ".data (d :: '.' :: ' ' :: t) = false :=
    isPrefixOf_cons_ne (Ne.symm (ne_of_pyIsDigit hd (by decide)))
  have hhash4 : List.isPrefixOf "#### ".data (d :: '.' :: ' ' :: t) = false :=
    isPrefixOf_cons_ne (Ne.symm (ne_of_pyIsDigit hd (by decide)))
  have hul : isUnordered (d :: '.' :: ' ' :: t) = false :=
    isPrefixOf_cons_ne (Ne.symm (ne_of_pyIsDigit hd (by decide)))
  have hol := isOrdered_cons_digit (t := t) hd
  have hcontent := olContent_cons (t := t) (ne_of_pyIsDigit hd (by decide))
  unfold processLine
  rw [hhash, hhash2, hhash3, hhash4, hul, hol, hcontent]
  simp

theorem isFence_cons_digit {d : Char} {l : List Char} (hd : pyIsDigit d = true) :
    isFence (d :: l) = false :=
  isPrefixOf_cons_ne (Ne.symm (ne_of_pyIsDigit hd (by decide)))

theorem convertLines_step_outside {prev : Option (List Char)} {line : List Char}
    {rest : List (List Char)} (h : isFence line = false) :
    convertLines prev false (line :: rest) =
      processLine prev line rest.head? ++ convertLines (some line) false rest := by
  simp [convertLines, h]

/-! ### C6: ordered list item classification -/

/-- C6 counterexample: the claim's "exactly when its first character is an
ASCII digit" is false of the program — the superscript `²` is not an ASCII
digit (Lean's `Char.isDigit`, i.e. `0`–`9`, is false on it), yet Python's
`line[0].isdigit()` accepts it, so the line `². x` IS classified as an
ordered list item and converted to a one-item ordered list. -/
theorem C6_counterexample :
    isOrdered "². x".data = true ∧
    ('²' : Char).isDigit = false ∧
    convertLines none false ["². x".data] =
      ["<ol>".data, "<li>".data ++ "x".data ++ "</li>".data, "</ol>".data] :=
  ⟨by decide, by decide, by decide⟩

/-- C6 amended: a line is classified as an ordered list item exactly when
its first character is a digit in the sense of Python's `str.isdigit()`
(`pyIsDigit`: any script's decimal digits plus Numeric_Type=Digit
characters such as `²` — the ASCII digits `0`–`9` among them) and the
remainder from the second character starts with `. ` (so the line is
`d . ␣ t` for such a digit `d`); for such a line the numeral and the `. `
separator are stripped — the emitted item text is the content `t` after the
first `.` and the following space — with the contiguous-run wrapping
decided by the neighbouring raw lines. -/
theorem C6_ordered_classification :
    (∀ line : List Char,
      isOrdered line = true ↔
        ∃ d t, line = d :: '.' :: ' ' :: t ∧ pyIsDigit d = true) ∧
    (∀ (prev : Option (List Char)) (d : Char) (t : List Char)
        (rest : List (List Char)),
      pyIsDigit d = true →
      convertLines prev false ((d :: '.' :: ' ' :: t) :: rest) =
        ((if optHolds isOrdered prev then [] else ["<ol>".data]) ++
         ["<li>".data ++ t ++ "</li>".data] ++
         (if optHolds isOrdered rest.head? then [] else ["</ol>".data])) ++
        convertLines (some (d :: '.' :: ' ' :: t)) false rest) := by
  constructor
  · intro line
    constructor
    · intro h
      cases line with
      | nil => exact absurd h (by decide)
      | cons d r0 =>
        unfold isOrdered at h
        simp only [Bool.and_eq_true, decide_eq_true_eq] at h
        obtain ⟨-, hd, hpre⟩ := h
        cases r0 with
        | nil => exact absurd hpre (by decide)
        | cons e r1 =>
          cases r1 with
          | nil => simp [List.isPrefixOf] at hpre
          | cons f t =>
            simp only [List.isPrefixOf, Bool.and_eq_true, beq_iff_eq] at hpre
            obtain ⟨he, hf, -⟩ := hpre
            subst he; subst hf
            exact ⟨d, t, rfl, hd⟩
    · rintro ⟨d, t, rfl, hd⟩
      exact isOrdered_cons_digit hd
  · intro prev d t rest hd
    rw [convertLines_step_outside (isFence_cons_digit hd), processLine_ol hd]

/-- C6 witness: the theorem applied to the single line `1. x`. -/
theorem C6_witness :
    pyIsDigit '1' = true ∧
    convertLines none false (('1' :: '.' :: ' ' :: "x".data) :: []) =
      ((if optHolds isOrdered (none : Option (List Char)) then [] else ["<ol>".data]) ++
       ["<li>".data ++ "x".data ++ "</li>".data] ++
       (if optHolds isOrdered (List.head? ([] : List (List Char))) then []
        else ["</ol>".data])) ++
      convertLines (some ('1' :: '.' :: ' ' :: "x".data)) false [] :=
  ⟨by decide, C6_ordered_classification.2 none '1' "x".data [] (by decide)⟩

/-! ### C3: fenced content escaping -/

/-- Character-wise description of the fenced-content escaping: `&`, `<`, `>`
become their entities, every other character is untouched. -/
def escChar (c : Char) : List Char :=
  if c = '&' then "&amp;".data
  else if c = '<' then "&lt;".data
  else if c = '>' then "&gt;".data
  else [c]

theorem pyReplaceChar_cons {o : Char} {n : List Char} {c : Char} {l : List Char} :
    pyReplaceChar o n (c :: l) = (if c = o then n else [c]) ++ pyReplaceChar o n l := by
  simp [pyReplaceChar]

theorem pyReplaceChar_append {o : Char} {n l1 l2 : List Char} :
    pyReplaceChar o n (l1 ++ l2) = pyReplaceChar o n l1 ++ pyReplaceChar o n l2 := by
  simp [pyReplaceChar]

theorem escapeHtml_eq_flatMap (l : List Char) : escapeHtml l = l.flatMap escChar := by
  induction l with
  | nil => rfl
  | cons c rest ih =>
    unfold escapeHtml at *
    rw [pyReplaceChar_cons, pyReplaceChar_append, pyReplaceChar_append, ih,
      List.flatMap_cons]
    congr 1
    by_cases h1 : c = '&'
    · subst h1; rfl
    · by_cases h2 : c = '<'
      · subst h2; simp [escChar, pyReplaceChar]
      · by_cases h3 : c = '>'
        · subst h3; simp [escChar, pyReplaceChar, h1, h2]
        · simp [escChar, pyReplaceChar, h1, h2, h3]

/-- C3: while the fence flag is set, a line that is not itself a fence
delimiter is emitted verbatim except for the `&`, `<`, `>` escaping (the
composition of the three substitutions in source order, which acts as the
per-character map `escChar` — no inline formatting is applied); a fence
delimiter line instead emits the closing markup and clears the flag, so a
delimiter never appears as code content. -/
theorem C3_fenced_content :
    ∀ (prev : Option (List Char)) (line : List Char) (rest : List (List Char)),
      (isFence line = false →
        convertLines prev true (line :: rest) =
          escapeHtml line :: convertLines (some line) true rest) ∧
      escapeHtml line = line.flatMap escChar ∧
      (isFence line = true →
        convertLines prev true (line :: rest) =
          codeClose :: convertLines (some line) false rest) := by
  intro prev line rest
  refine ⟨?_, escapeHtml_eq_flatMap line, ?_⟩
  · intro h
    simp [convertLines, h]
  · intro h
    simp [convertLines, h]

/-- C3 witness: the fenced content line `a<b` is escaped, not formatted. -/
theorem C3_witness :
    isFence "a<b".data = false ∧
    convertLines none true ["a<b".data] =
      escapeHtml "a<b".data :: convertLines (some "a<b".data) true [] :=
  ⟨by decide, (C3_fenced_content none "a<b".data []).1 (by decide)⟩

/-! ### C5: headers -/

theorem processLine_h1 {prev next : Option (List Char)} {t : List Char} :
    processLine prev ('#' :: ' ' :: t) next = ["<h1>".data ++ t ++ "</h1>".data] := by
  simp [processLine, List.isPrefixOf]

theorem processLine_h2 {prev next : Option (List Char)} {t : List Char} :
    processLine prev ('#' :: '#' :: ' ' :: t) next =
      ["<h2>".data ++ t ++ "</h2>".data] := by
  simp [processLine, List.isPrefixOf]

theorem processLine_h3 {prev next : Option (List Char)} {t : List Char} :
    processLine prev ('#' :: '#' :: '#' :: ' ' :: t) next =
      ["<h3>".data ++ t ++ "</h3>".data] := by
  simp [processLine, List.isPrefixOf]

theorem processLine_h4 {prev next : Option (List Char)} {t : List Char} :
    processLine prev ('#' :: '#' :: '#' :: '#' :: ' ' :: t) next =
      ["<h4>".data ++ t ++ "</h4>".data] := by
  simp [processLine, List.isPrefixOf]

theorem processLine_default {prev next : Option (List Char)} {line : List Char}
    (h1 : List.isPrefixOf "# ".data line = false)
    (h2 : List.isPrefixOf "## ".data line = false)
    (h3 : List.isPrefixOf "### ".data line = false)
    (h4 : List.isPrefixOf "#### ".data line = false)
    (h5 : isUnordered line = false)
    (h6 : isOrdered line = false)
    (h7 : pyStrip line ≠ []) :
    processLine prev line next = [defaultFrag line] := by
  unfold processLine
  rw [h1, h2, h3, h4, h5, h6, if_neg h7]
  simp

theorem isOrdered_fivehash {r : List Char} :
    isOrdered ('#' :: '#' :: '#' :: '#' :: '#' :: r) = false := by
  unfold isOrdered
  dsimp only
  have hdig : pyIsDigit '#' = false := by decide
  rw [hdig]
  simp

/-- C5 counterexample: the 5-`#` line `##### <li>` falls to the default case
but is NOT wrapped as a paragraph, because the formatted line contains the
literal pass-through tag `<li>`. -/
theorem C5_counterexample :
    simple_markdown_to_html "##### <li>" = "##### <li>" ∧
    ¬ ("<p>".data <+: (simple_markdown_to_html "##### <li>").data) := by
  refine ⟨by decide, by decide⟩

/-- C5 amended: a line outside a fence starting with 1–4 `#` followed by a
space becomes the matching heading with the marker stripped; a line with 5
or more leading `#` is not a header and falls to the default case, where —
being non-blank — it is paragraph-wrapped provided its formatted form does
not contain one of the literal pass-through block tags (when it does, as in
`##### <li>`, it is emitted unwrapped). -/
theorem C5_headers :
    (∀ (prev : Option (List Char)) (t : List Char) (rest : List (List Char)),
      convertLines prev false (('#' :: ' ' :: t) :: rest) =
        ("<h1>".data ++ t ++ "</h1>".data) ::
          convertLines (some ('#' :: ' ' :: t)) false rest ∧
      convertLines prev false (('#' :: '#' :: ' ' :: t) :: rest) =
        ("<h2>".data ++ t ++ "</h2>".data) ::
          convertLines (some ('#' :: '#' :: ' ' :: t)) false rest ∧
      convertLines prev false (('#' :: '#' :: '#' :: ' ' :: t) :: rest) =
        ("<h3>".data ++ t ++ "</h3>".data) ::
          convertLines (some ('#' :: '#' :: '#' :: ' ' :: t)) false rest ∧
      convertLines prev false (('#' :: '#' :: '#' :: '#' :: ' ' :: t) :: rest) =
        ("<h4>".data ++ t ++ "</h4>".data) ::
          convertLines (some ('#' :: '#' :: '#' :: '#' :: ' ' :: t)) false rest) ∧
    (∀ (prev : Option (List Char)) (line : List Char) (rest : List (List Char)),
      List.isPrefixOf "#####".data line = true →
      hasBlockTag (fmtInline line) = false →
      convertLines prev false (line :: rest) =
        ("<p>".data ++ fmtInline line ++ "</p>".data) ::
          convertLines (some line) false rest) := by
  constructor
  · intro prev t rest
    refine ⟨?_, ?_, ?_, ?_⟩ <;>
      rw [convertLines_step_outside (by rfl)] <;>
      simp [processLine_h1, processLine_h2, processLine_h3, processLine_h4]
  · intro prev line rest hpre htag
    have hpre' : "#####".data <+: line := List.isPrefixOf_iff_prefix.mp hpre
    obtain ⟨r, hr⟩ := hpre'
    subst hr
    have hline : "#####".data ++ r = '#' :: '#' :: '#' :: '#' :: '#' :: r := rfl
    rw [hline]
    rw [convertLines_step_outside (by rfl)]
    rw [processLine_default (by rfl) (by rfl) (by rfl) (by rfl) (by rfl)
      isOrdered_fivehash (pyStrip_cons_ne_nil (by decide))]
    have hfrag : defaultFrag ('#' :: '#' :: '#' :: '#' :: '#' :: r) =
        "<p>".data ++ fmtInline ('#' :: '#' :: '#' :: '#' :: '#' :: r) ++ "</p>".data := by
      unfold defaultFrag
      rw [hline] at htag
      rw [if_neg (by rw [htag]; simp)]
    rw [hfrag]
    rfl

/-- C5 witness: the theorem applied to the line `##### X`, which is
paragraph-wrapped. -/
theorem C5_witness :
    List.isPrefixOf "#####".data "##### X".data = true ∧
    hasBlockTag (fmtInline "##### X".data) = false ∧
    convertLines none false ["##### X".data] =
      ("<p>".data ++ fmtInline "##### X".data ++ "</p>".data) ::
        convertLines (some "##### X".data) false [] :=
  ⟨by decide, by decide, C5_headers.2 none "##### X".data [] (by decide) (by decide)⟩

/-! ### C2: contiguous unordered-list runs -/

/-- The item fragment emitted for an unordered list line (source line 276). -/
def ulItem (l : List Char) : List Char := "<li>".data ++ l.drop 2 ++ "</li>".data

theorem unordered_shape {line : List Char} (h : isUnordered line = true) :
    ∃ t, line = '-' :: ' ' :: t := by
  obtain ⟨r, hr⟩ := List.isPrefixOf_iff_prefix.mp h
  exact ⟨r, hr.symm⟩

theorem isFence_of_unordered {l : List Char} (h : isUnordered l = true) :
    isFence l = false := by
  obtain ⟨t, rfl⟩ := unordered_shape h
  exact isPrefixOf_cons_ne (by decide)

theorem processLine_ul {prev next : Option (List Char)} {line : List Char}
    (h : isUnordered line = true) :
    processLine prev line next =
      (if optHolds isUnordered prev then [] else ["<ul>".data]) ++
      ["<li>".data ++ line.drop 2 ++ "</li>".data] ++
      (if optHolds isUnordered next then [] else ["</ul>".data]) := by
  obtain ⟨t, rfl⟩ := unordered_shape h
  unfold processLine
  rw [isPrefixOf_cons_ne (by decide), isPrefixOf_cons_ne (by decide),
    isPrefixOf_cons_ne (by decide), isPrefixOf_cons_ne (by decide), h]
  simp

theorem convertLines_ul_run_mid :
    ∀ (run post : List (List Char)) (p : List Char),
      isUnordered p = true → run ≠ [] →
      (∀ l ∈ run, isUnordered l = true) →
      optHolds isUnordered post.head? = false →
      convertLines (some p) false (run ++ post) =
        run.map ulItem ++
          ("</ul>".data :: convertLines (some (run.getLastD [])) false post) := by
  intro run
  induction run with
  | nil => intro post p _ hne _ _; exact absurd rfl hne
  | cons a rs ih =>
    intro post p hp _ hall hpost
    have ha : isUnordered a = true := hall a (by simp)
    cases rs with
    | nil =>
      rw [List.cons_append, List.nil_append,
        convertLines_step_outside (isFence_of_unordered ha), processLine_ul ha]
      have hprev : optHolds isUnordered (some p) = true := hp
      rw [hprev, hpost]
      simp [ulItem]
    | cons b rs2 =>
      have hb : isUnordered b = true := hall b (by simp)
      rw [List.cons_append,
        convertLines_step_outside (isFence_of_unordered ha), processLine_ul ha]
      have hprev : optHolds isUnordered (some p) = true := hp
      have hnext : optHolds isUnordered (((b :: rs2) ++ post).head?) = true := by
        simp [optHolds, hb]
      rw [hprev, hnext,
        ih post a ha (by simp) (fun l hl => hall l (by simp [hl])) hpost]
      simp [ulItem]

/-- C2: for a maximal contiguous run of lines starting with `- ` reached
outside any fence (the raw previous line, if any, is not an unordered item,
and the raw line after the run, if any, is not an unordered item), the
emitted fragments are exactly one `<ul>`, then one `<li>…</li>` per line of
the run in order with the two-character marker stripped, then exactly one
`</ul>`, after which processing continues on the remaining lines — so the
wrapper tags are emitted once per run, and a neighbouring line of a
different kind never joins the run. -/
theorem C2_ul_runs :
    ∀ (run post : List (List Char)) (prev : Option (List Char)),
      run ≠ [] →
      (∀ l ∈ run, isUnordered l = true) →
      optHolds isUnordered prev = false →
      optHolds isUnordered post.head? = false →
      convertLines prev false (run ++ post) =
        "<ul>".data ::
          (run.map ulItem ++
            ("</ul>".data :: convertLines (some (run.getLastD [])) false post)) := by
  intro run post prev hne hall hprev hpost
  cases run with
  | nil => exact absurd rfl hne
  | cons a rs =>
    have ha : isUnordered a = true := hall a (by simp)
    cases rs with
    | nil =>
      rw [List.cons_append, List.nil_append,
        convertLines_step_outside (isFence_of_unordered ha), processLine_ul ha,
        hprev, hpost]
      simp [ulItem]
    | cons b rs2 =>
      have hb : isUnordered b = true := hall b (by simp)
      have hnext : optHolds isUnordered (((b :: rs2) ++ post).head?) = true := by
        simp [optHolds, hb]
      rw [List.cons_append,
        convertLines_step_outside (isFence_of_unordered ha), processLine_ul ha,
        hprev, hnext,
        convertLines_ul_run_mid (b :: rs2) post a ha (by simp)
          (fun l hl => hall l (by simp [hl])) hpost]
      simp [ulItem]

/-- C2 witness: the three-line run `- a`, `- b`, `- c` at the start of the
document. -/
theorem C2_witness :
    (["- a".data, "- b".data, "- c".data] ≠ ([] : List (List Char))) ∧
    convertLines none false (["- a".data, "- b".data, "- c".data] ++ []) =
      "<ul>".data ::
        ((["- a".data, "- b".data, "- c".data].map ulItem) ++
          ("</ul>".data ::
            convertLines (some (["- a".data, "- b".data, "- c".data].getLastD []))
              false [])) :=
  ⟨by decide,
    C2_ul_runs ["- a".data, "- b".data, "- c".data] [] none (by decide)
      (by decide) (by decide) (by decide)⟩

/-! ### C4: fence balance and forced close -/

/-- The fence open/close events of a conversion: `true` when a fence line is
met with the flag clear (an open is emitted), `false` when one is met with
the flag set (a close is emitted), plus the forced final close when the flag
is still set after the last line. -/
def fenceEvents : Bool → List (List Char) → List Bool
  | b, [] => if b then [false] else []
  | b, l :: rest =>
    if isFence l then (if b then false else true) :: fenceEvents (!b) rest
    else fenceEvents b rest

theorem escapeHtml_no_lt {l : List Char} : '<' ∉ escapeHtml l := by
  rw [escapeHtml_eq_flatMap]
  intro h
  obtain ⟨a, -, ha⟩ := List.mem_flatMap.mp h
  unfold escChar at ha
  by_cases h1 : a = '&'
  · simp [h1] at ha
  · by_cases h2 : a = '<'
    · simp [h1, h2] at ha
    · by_cases h3 : a = '>'
      · simp [h1, h2, h3] at ha
      · simp [h1, h2, h3] at ha
        exact h2 ha.symm

theorem escapeHtml_ne_close {l : List Char} : escapeHtml l ≠ codeClose := by
  intro h
  have : '<' ∈ escapeHtml l := by rw [h]; decide
  exact escapeHtml_no_lt this

theorem ne_close_of_getElem {x : List Char} {i : Nat} {c : Char}
    (h : x[i]? = some c) (hc : codeClose[i]? ≠ some c) : x ≠ codeClose :=
  fun he => hc (he ▸ h)

theorem codeOpen_ne_close {lang : List Char} : codeOpen lang ≠ codeClose :=
  ne_close_of_getElem (show (codeOpen lang)[1]? = some 'p' from rfl) (by decide)

theorem defaultFrag_ne_close {line : List Char} : defaultFrag line ≠ codeClose := by
  unfold defaultFrag
  split
  next hbt =>
    intro he
    rw [he] at hbt
    exact absurd hbt (by decide)
  next =>
    intro he
    simp [codeClose] at he

theorem processLine_ne_close {prev next : Option (List Char)} {line f : List Char}
    (hf : f ∈ processLine prev line next) : f ≠ codeClose := by
  intro he
  rw [he] at hf
  unfold processLine at hf
  split_ifs at hf <;>
    first
    | (simp [codeClose] at hf
       done)
    | (simp only [List.mem_singleton] at hf
       exact defaultFrag_ne_close hf.symm)

theorem convertLines_close_count :
    ∀ (lines : List (List Char)) (prev : Option (List Char)) (b : Bool),
      (convertLines prev b lines).countP (fun f => decide (f = codeClose)) =
        (fenceEvents b lines).count false := by
  intro lines
  induction lines with
  | nil =>
    intro prev b
    cases b <;> simp [convertLines, fenceEvents, List.count_cons]
  | cons l rest ih =>
    intro prev b
    by_cases hf : isFence l = true
    · cases b
      · rw [show convertLines prev false (l :: rest) =
            codeOpen (pyStrip (l.drop 3)) :: convertLines (some l) true rest from
            by simp [convertLines, hf],
          show fenceEvents false (l :: rest) = true :: fenceEvents true rest from
            by simp [fenceEvents, hf]]
        rw [List.countP_cons, List.count_cons, ih]
        simp [codeOpen_ne_close]
      · rw [show convertLines prev true (l :: rest) =
            codeClose :: convertLines (some l) false rest from
            by simp [convertLines, hf],
          show fenceEvents true (l :: rest) = false :: fenceEvents false rest from
            by simp [fenceEvents, hf]]
        rw [List.countP_cons, List.count_cons, ih]
        simp
    · have hf' : isFence l = false := by
        cases hfe : isFence l
        · rfl
        · exact absurd hfe hf
      cases b
      · rw [convertLines_step_outside hf',
          show fenceEvents false (l :: rest) = fenceEvents false rest from
            by simp [fenceEvents, hf']]
        rw [List.countP_append, ih]
        have hz : (processLine prev l rest.head?).countP
            (fun f => decide (f = codeClose)) = 0 := by
          rw [List.countP_eq_zero]
          intro f hmem
          simpa using processLine_ne_close hmem
        rw [hz, Nat.zero_add]
      · rw [show convertLines prev true (l :: rest) =
            escapeHtml l :: convertLines (some l) true rest from
            by simp [convertLines, hf'],
          show fenceEvents true (l :: rest) = fenceEvents true rest from
            by simp [fenceEvents, hf']]
        rw [List.countP_cons, ih]
        simp [escapeHtml_ne_close]

theorem fenceEvents_shape :
    ∀ lines : List (List Char),
      (∃ n, fenceEvents false lines = (List.replicate n [true, false]).flatten) ∧
      (∃ n, fenceEvents true lines =
        false :: (List.replicate n [true, false]).flatten) := by
  intro lines
  induction lines with
  | nil => exact ⟨⟨0, rfl⟩, ⟨0, rfl⟩⟩
  | cons l rest ih =>
    obtain ⟨⟨n1, h1⟩, ⟨n2, h2⟩⟩ := ih
    by_cases hf : isFence l = true
    · refine ⟨⟨n2 + 1, ?_⟩, ⟨n1, ?_⟩⟩
      · simp [fenceEvents, hf, h2, List.replicate_succ]
      · simp [fenceEvents, hf, h1]
    · exact ⟨⟨n1, by simp [fenceEvents, hf, h1]⟩, ⟨n2, by simp [fenceEvents, hf, h2]⟩⟩

/-- C4: (i) when the fence flag is still set after the last line the
converter force-emits the closing markup, (ii) the number of `</code></pre>`
fragments in the output equals the number of close events of the fence
automaton (no other branch can emit that fragment), and (iii) starting
outside a fence the event sequence is a concatenation of open–close pairs —
fence tags are balanced, the flag is effectively false at end of document,
depth never exceeds one and fences do not nest. -/
theorem C4_fence_balance :
    (∀ prev : Option (List Char), convertLines prev true [] = [codeClose]) ∧
    (∀ (lines : List (List Char)) (prev : Option (List Char)) (b : Bool),
      (convertLines prev b lines).countP (fun f => decide (f = codeClose)) =
        (fenceEvents b lines).count false) ∧
    (∀ lines : List (List Char),
      ∃ n, fenceEvents false lines = (List.replicate n [true, false]).flatten ∧
        (fenceEvents false lines).count true =
          (fenceEvents false lines).count false) := by
  refine ⟨fun prev => rfl, convertLines_close_count, fun lines => ?_⟩
  obtain ⟨n, hn⟩ := (fenceEvents_shape lines).1
  refine ⟨n, hn, ?_⟩
  rw [hn]
  clear hn
  induction n with
  | zero => rfl
  | succ m ihm =>
    rw [List.replicate_succ]
    simp only [List.flatten_cons, List.count_append]
    have h1 : List.count true [true, false] = 1 := by decide
    have h2 : List.count false [true, false] = 1 := by decide
    rw [h1, h2, ihm]

/-! ### C7: global link substitution -/

theorem scanTo {sep : Char} :
    ∀ (l1 l2 : List Char), (∀ c ∈ l1, c ≠ sep) →
      (l1 ++ sep :: l2).takeWhile (fun c => c != sep) = l1 ∧
      (l1 ++ sep :: l2).dropWhile (fun c => c != sep) = sep :: l2 := by
  intro l1
  induction l1 with
  | nil =>
    intro l2 _
    constructor
    · simp [List.takeWhile_cons]
    · simp [List.dropWhile_cons]
  | cons a as ih =>
    intro l2 h
    have ha : (a != sep) = true := bne_iff_ne.mpr (h a (by simp))
    have ihr := ih l2 (fun c hc => h c (by simp [hc]))
    constructor
    · rw [List.cons_append]
      simp only [List.takeWhile_cons, ha, if_true]
      rw [ihr.1]
    · rw [List.cons_append]
      simp only [List.dropWhile_cons, ha, if_true]
      exact ihr.2

theorem matchLink_of_shape {t u rest : List Char}
    (ht : t ≠ []) (ht2 : ∀ c ∈ t, c ≠ ']') (hu : u ≠ []) (hu2 : ∀ c ∈ u, c ≠ ')') :
    matchLink (t ++ ']' :: '(' :: (u ++ ')' :: rest)) = some (t, u, rest) := by
  unfold matchLink
  obtain ⟨htake, hdrop⟩ := scanTo t ('(' :: (u ++ ')' :: rest)) ht2
  obtain ⟨hut, hud⟩ := scanTo u rest hu2
  rw [hdrop]
  simp only [htake, hut, hud]
  simp [ht, hu]

/-- C7: the link substitution is global: whenever the scan reaches an
occurrence of the `[text](url)` pattern (nonempty text without `]`,
nonempty url without `)`), it rewrites it to the anchor element with `href`
set to the url and visible text set to the text, and then continues on the
remainder of the line — and any character that does not start a match is
passed over with scanning continuing, so every match in the line is
rewritten, not only the first. -/
theorem C7_links_global :
    (∀ (text url rest : List Char),
      text ≠ [] → (∀ c ∈ text, c ≠ ']') → url ≠ [] → (∀ c ∈ url, c ≠ ')') →
      linkSub ('[' :: (text ++ ']' :: '(' :: (url ++ ')' :: rest))) =
        anchorOf text url ++ linkSub rest) ∧
    (∀ (c : Char) (s : List Char), c ≠ '[' →
      linkSub (c :: s) = c :: linkSub s) := by
  constructor
  · intro text url rest ht ht2 hu hu2
    exact linkSub_cons_some (matchLink_of_shape ht ht2 hu hu2)
  · intro c s hc
    exact linkSub_cons_of_ne hc

/-- C7 witness: one match is rewritten with scanning continuing on a tail
that itself holds a second link; a full two-link line converts both. -/
theorem C7_witness :
    (linkSub ('[' :: ("go".data ++ ']' :: '(' :: ("u".data ++ ')' :: "[a](b)".data))) =
      anchorOf "go".data "u".data ++ linkSub "[a](b)".data) ∧
    simple_markdown_to_html "[go](http://e.com) and [a](b)" =
      "<p><a href=\"http://e.com\">go</a> and <a href=\"b\">a</a></p>" :=
  ⟨C7_links_global.1 "go".data "u".data "[a](b)".data (by decide) (by decide)
      (by decide) (by decide),
   by decide⟩

/-! ### Substring decomposition helpers -/

theorem splitPrefixAppend {P A B : List Char} (h : P <+: A ++ B) :
    P <+: A ∨ ∃ p2, P = A ++ p2 ∧ p2 <+: B := by
  obtain ⟨r, hr⟩ := h
  rcases List.append_eq_append_iff.mp hr with ⟨a', ha1, _⟩ | ⟨c', hc1, hc2⟩
  · exact Or.inl ⟨a', ha1.symm⟩
  · exact Or.inr ⟨c', hc1, ⟨r, hc2.symm⟩⟩

theorem splitInfixAppend {P A B : List Char} (h : P <:+: A ++ B) :
    P <:+: A ∨ P <:+: B ∨
      ∃ p1 p2, P = p1 ++ p2 ∧ p1 ≠ [] ∧ p2 ≠ [] ∧ p1 <:+ A ∧ p2 <+: B := by
  induction A with
  | nil =>
    rw [List.nil_append] at h
    exact Or.inr (Or.inl h)
  | cons a A' ih =>
    rw [List.cons_append, List.infix_cons_iff] at h
    rcases h with h | h
    · cases P with
      | nil => exact Or.inl List.nil_infix
      | cons p ps =>
        rw [List.cons_prefix_cons] at h
        obtain ⟨rfl, hps⟩ := h
        rcases splitPrefixAppend hps with h2 | ⟨p2, hp2, hp2b⟩
        · exact Or.inl (List.cons_prefix_cons.mpr ⟨rfl, h2⟩).isInfix
        · by_cases hp2nil : p2 = []
          · subst hp2nil
            rw [List.append_nil] at hp2
            subst hp2
            exact Or.inl List.infix_rfl
          · refine Or.inr (Or.inr ⟨p :: A', p2, ?_, by simp, hp2nil, List.suffix_rfl, hp2b⟩)
            rw [List.cons_append, ← hp2]
    · rcases ih h with h2 | h2 | ⟨p1, p2, hP, h1, h2', h3, h4⟩
      · exact Or.inl (List.infix_cons h2)
      · exact Or.inr (Or.inl h2)
      · exact Or.inr (Or.inr ⟨p1, p2, hP, h1, h2', h3.trans (List.suffix_cons a A'), h4⟩)

theorem headOfPrefix {p l : List Char} (h : p <+: l) (hp : p ≠ []) :
    p.head? = l.head? := by
  obtain ⟨q, hq⟩ := h
  rw [← hq, List.head?_append]
  cases p with
  | nil => exact absurd rfl hp
  | cons x xs => simp

theorem lastOfSuffix {p l : List Char} (h : p <:+ l) (hp : p ≠ []) :
    p.getLast? = l.getLast? := by
  obtain ⟨q, hq⟩ := h
  rw [← hq, List.getLast?_append]
  cases hx : p.getLast? with
  | none => exact absurd (List.getLast?_eq_none_iff.mp hx) hp
  | some x => simp

/-- Kill a spanning split whose left half is a nonempty suffix of `C`: its
last character is `C`'s, but no proper nonempty prefix of `P` ends in it. -/
theorem spanLeftLast {P C p1 p2 : List Char} {x : Char}
    (hP : P = p1 ++ p2) (h1 : p1 ≠ []) (h2 : p2 ≠ []) (hsuf : p1 <:+ C)
    (hC : C.getLast? = some x)
    (hk : ∀ k, 1 ≤ k → k + 1 ≤ P.length → (P.take k).getLast? ≠ some x) : False := by
  have hp1 : p1 = P.take p1.length := by rw [hP, List.take_left]
  have hl1 : 1 ≤ p1.length := List.length_pos.mpr h1
  have hl2 : p1.length + 1 ≤ P.length := by
    rw [hP, List.length_append]
    have : 1 ≤ p2.length := List.length_pos.mpr h2
    omega
  have hlast : p1.getLast? = some x := by rw [lastOfSuffix hsuf h1, hC]
  exact hk p1.length hl1 hl2 (by rw [← hp1]; exact hlast)

/-- Kill a spanning split whose right half is a nonempty prefix of `D`: its
first character is `D`'s, but no proper nonempty suffix of `P` starts with
it. -/
theorem spanRightHead {P D p1 p2 : List Char} {x : Char}
    (hP : P = p1 ++ p2) (h1 : p1 ≠ []) (h2 : p2 ≠ []) (hpre : p2 <+: D)
    (hD : D.head? = some x)
    (hk : ∀ k, 1 ≤ k → k + 1 ≤ P.length → (P.drop k).head? ≠ some x) : False := by
  have hp2 : p2 = P.drop p1.length := by rw [hP, List.drop_left]
  have hl1 : 1 ≤ p1.length := List.length_pos.mpr h1
  have hl2 : p1.length + 1 ≤ P.length := by
    rw [hP, List.length_append]
    have : 1 ≤ p2.length := List.length_pos.mpr h2
    omega
  have hh : p2.head? = some x := by rw [headOfPrefix hpre h2, hD]
  exact hk p1.length hl1 hl2 (by rw [← hp2]; exact hh)

theorem matchLink_structure {rest t u r : List Char}
    (h : matchLink rest = some (t, u, r)) :
    rest = t ++ ']' :: '(' :: (u ++ ')' :: r) ∧
      (∀ c ∈ t, c ≠ ']') ∧ (∀ c ∈ u, c ≠ ')') := by
  unfold matchLink at h
  split at h
  next r2 heq =>
    split at h
    next r4 heq2 =>
      dsimp only at h
      split at h
      · exact absurd h (by simp)
      · simp only [Option.some.injEq, Prod.mk.injEq] at h
        obtain ⟨h1, h2, h3⟩ := h
        refine ⟨?_, ?_, ?_⟩
        · have e1 : rest = t ++ (']' :: '(' :: r2) := by
            rw [← h1, ← heq, List.takeWhile_append_dropWhile]
          have e2 : r2 = u ++ (')' :: r4) := by
            rw [← h2, ← heq2, List.takeWhile_append_dropWhile]
          rw [e1, e2, h3]
        · intro c hc
          rw [← h1] at hc
          have := List.mem_takeWhile_imp hc
          simpa [bne_iff_ne] using this
        · intro c hc
          rw [← h2] at hc
          have := List.mem_takeWhile_imp hc
          simpa [bne_iff_ne] using this
    · exact absurd h (by simp)
  · exact absurd h (by simp)

/-! ### Emphasis-tag tracking through the link substitution -/

/-- `</em>` cannot appear inside an emitted anchor unless it already appears
in the captured text or url: every junction inside the anchor is ruled out
by a first/last-character clash. -/
theorem not_infix_anchorOf {t u : List Char}
    (ht : ¬ ("</em>".data <:+: t)) (hu : ¬ ("</em>".data <:+: u)) :
    ¬ ("</em>".data <:+: anchorOf t u) := by
  intro h
  have hlen : ("</em>".data).length = 5 := rfl
  rw [show anchorOf t u =
      "<a href=\"".data ++ (u ++ ("\">".data ++ (t ++ "</a>".data))) from by
    simp [anchorOf]] at h
  rcases splitInfixAppend h with h1 | h1 | ⟨p1, p2, hP, h1n, h2n, hsuf, hpre⟩
  · exact absurd h1 (by decide)
  · rcases splitInfixAppend h1 with h2 | h2 | ⟨p1, p2, hP, h1n, h2n, hsuf, hpre⟩
    · exact hu h2
    · rcases splitInfixAppend h2 with h3 | h3 | ⟨p1, p2, hP, h1n, h2n, hsuf, hpre⟩
      · exact absurd h3 (by decide)
      · rcases splitInfixAppend h3 with h4 | h4 | ⟨p1, p2, hP, h1n, h2n, hsuf, hpre⟩
        · exact ht h4
        · exact absurd h4 (by decide)
        · exact spanRightHead hP h1n h2n hpre
            (show ("</a>".data).head? = some '<' from rfl)
            (by intro k hk1 hk2; rw [hlen] at hk2; rcases (show k = 1 ∨ k = 2 ∨ k = 3 ∨ k = 4 by omega) with rfl | rfl | rfl | rfl <;> decide)
      · exact spanLeftLast hP h1n h2n hsuf
          (show ("\">".data).getLast? = some '>' from by decide)
          (by intro k hk1 hk2; rw [hlen] at hk2; rcases (show k = 1 ∨ k = 2 ∨ k = 3 ∨ k = 4 by omega) with rfl | rfl | rfl | rfl <;> decide)
    · exact spanRightHead hP h1n h2n hpre
        (show ("\">".data ++ (t ++ "</a>".data)).head? = some '"' from rfl)
        (by intro k hk1 hk2; rw [hlen] at hk2; rcases (show k = 1 ∨ k = 2 ∨ k = 3 ∨ k = 4 by omega) with rfl | rfl | rfl | rfl <;> decide)
  · exact spanLeftLast hP h1n h2n hsuf
      (show ("<a href=\"".data).getLast? = some '"' from by decide)
      (by intro k hk1 hk2; rw [hlen] at hk2; rcases (show k = 1 ∨ k = 2 ∨ k = 3 ∨ k = 4 by omega) with rfl | rfl | rfl | rfl <;> decide)

theorem linkSub_prefix_preserve :
    ∀ (q r : List Char), (∀ c ∈ q, c ≠ '[') → q <+: r → q <+: linkSub r := by
  intro q
  induction q with
  | nil => intro r _ _; exact ⟨linkSub r, rfl⟩
  | cons d q' ih =>
    intro r hq hpre
    cases r with
    | nil =>
      rw [List.prefix_nil] at hpre
      exact absurd hpre (by simp)
    | cons c r' =>
      rw [List.cons_prefix_cons] at hpre
      obtain ⟨rfl, hq'⟩ := hpre
      have hd : d ≠ '[' := hq d (by simp)
      rw [linkSub_cons_of_ne hd]
      exact List.cons_prefix_cons.mpr
        ⟨rfl, ih r' (fun x hx => hq x (by simp [hx])) hq'⟩

theorem linkSub_prefix_pullback :
    ∀ (q : List Char), (∀ c ∈ q, c ≠ '[' ∧ c ≠ '<') →
      ∀ s : List Char, q <+: linkSub s → q <+: s := by
  intro q
  induction q with
  | nil => intro _ s _; exact ⟨s, rfl⟩
  | cons d q' ih =>
    intro hq s hpre
    cases s with
    | nil =>
      rw [linkSub_nil, List.prefix_nil] at hpre
      exact absurd hpre (by simp)
    | cons c rest =>
      cases hmm : (if c = '[' then matchLink rest else none) with
      | some v =>
        obtain ⟨t, u, r⟩ := v
        have hc : c = '[' := by
          by_contra hcn
          simp [hcn] at hmm
        subst hc
        have hm : matchLink rest = some (t, u, r) := by simpa using hmm
        rw [linkSub_cons_some hm] at hpre
        have hd : d = '<' := by
          have h2 := headOfPrefix hpre (by simp)
          rw [show (anchorOf t u ++ linkSub r).head? = some '<' from rfl] at h2
          simpa using h2
        exact absurd hd (hq d (by simp)).2
      | none =>
        rw [linkSub_cons_none (fun hc => by simpa [hc] using hmm)] at hpre
        rw [List.cons_prefix_cons] at hpre
        obtain ⟨rfl, hq'⟩ := hpre
        exact List.cons_prefix_cons.mpr
          ⟨rfl, ih (fun x hx => hq x (by simp [hx])) rest hq'⟩

/-- The link substitution never creates a `</em>` substring: if the output
contains one, the input already did. -/
theorem linkSub_close_pullback :
    ∀ (n : Nat) (s : List Char), s.length ≤ n →
      "</em>".data <:+: linkSub s → "</em>".data <:+: s := by
  intro n
  induction n with
  | zero =>
    intro s hl h
    have : s = [] := List.length_eq_zero.mp (Nat.le_zero.mp hl)
    subst this
    rwa [linkSub_nil] at h
  | succ m ih =>
    intro s hl h
    cases s with
    | nil => rwa [linkSub_nil] at h
    | cons c rest =>
      simp only [List.length_cons, Nat.succ_le_succ_iff] at hl
      cases hmm : (if c = '[' then matchLink rest else none) with
      | none =>
        rw [linkSub_cons_none (fun hc => by simpa [hc] using hmm)] at h
        rcases List.infix_cons_iff.mp h with hpre | hinf
        · rw [show "</em>".data = '<' :: "/em>".data from rfl] at hpre ⊢
          rw [List.cons_prefix_cons] at hpre
          obtain ⟨rfl, hq⟩ := hpre
          have hq' : "/em>".data <+: rest :=
            linkSub_prefix_pullback "/em>".data (by decide) rest hq
          exact (List.cons_prefix_cons.mpr ⟨rfl, hq'⟩).isInfix
        · exact List.infix_cons (ih rest hl hinf)
      | some v =>
        obtain ⟨t, u, r⟩ := v
        have hc : c = '[' := by
          by_contra hcn
          simp [hcn] at hmm
        subst hc
        have hm : matchLink rest = some (t, u, r) := by simpa using hmm
        rw [linkSub_cons_some hm] at h
        obtain ⟨hshape, -, -⟩ := matchLink_structure hm
        have hrlen := matchLink_length hm
        rcases splitInfixAppend h with h1 | h1 | ⟨p1, p2, hP, h1n, h2n, hsuf, hpre⟩
        · by_cases hti : "</em>".data <:+: t
          · have htr : t <:+: rest :=
              ⟨[], ']' :: '(' :: (u ++ ')' :: r), by rw [hshape]; simp⟩
            exact List.infix_cons (hti.trans htr)
          · by_cases hui : "</em>".data <:+: u
            · have hur : u <:+: rest :=
                ⟨t ++ [']', '('], ')' :: r, by rw [hshape]; simp⟩
              exact List.infix_cons (hui.trans hur)
            · exact absurd h1 (not_infix_anchorOf hti hui)
        · have hr := ih r (by omega) h1
          have hrr : r <:+ rest :=
            ⟨t ++ ']' :: '(' :: (u ++ [')']), by rw [hshape]; simp⟩
          exact List.infix_cons (hr.trans hrr.isInfix)
        · have hanchor : (anchorOf t u).getLast? = some '>' := by
            unfold anchorOf
            rw [List.getLast?_append, show ("</a>".data).getLast? = some '>' from rfl]
            simp
          have hlen : ("</em>".data).length = 5 := rfl
          exact (spanLeftLast hP h1n h2n hsuf hanchor
            (by intro k hk1 hk2; rw [hlen] at hk2; rcases (show k = 1 ∨ k = 2 ∨ k = 3 ∨ k = 4 by omega) with rfl | rfl | rfl | rfl <;> decide)).elim

/-- The link substitution preserves an `<em>` substring of its input. -/
theorem linkSub_em_preserve :
    ∀ (n : Nat) (s : List Char), s.length ≤ n →
      "<em>".data <:+: s → "<em>".data <:+: linkSub s := by
  intro n
  induction n with
  | zero =>
    intro s hl h
    have : s = [] := List.length_eq_zero.mp (Nat.le_zero.mp hl)
    subst this
    rwa [linkSub_nil]
  | succ m ih =>
    intro s hl h
    cases s with
    | nil => rwa [linkSub_nil]
    | cons c rest =>
      simp only [List.length_cons, Nat.succ_le_succ_iff] at hl
      cases hmm : (if c = '[' then matchLink rest else none) with
      | none =>
        rw [linkSub_cons_none (fun hc => by simpa [hc] using hmm)]
        rcases List.infix_cons_iff.mp h with hpre | hinf
        · rw [show "<em>".data = '<' :: "em>".data from rfl] at hpre ⊢
          rw [List.cons_prefix_cons] at hpre
          obtain ⟨rfl, hq⟩ := hpre
          exact (List.cons_prefix_cons.mpr
            ⟨rfl, linkSub_prefix_preserve "em>".data rest (by decide) hq⟩).isInfix
        · exact List.infix_cons (ih rest hl hinf)
      | some v =>
        obtain ⟨t, u, r⟩ := v
        have hc : c = '[' := by
          by_contra hcn
          simp [hcn] at hmm
        subst hc
        have hm : matchLink rest = some (t, u, r) := by simpa using hmm
        rw [linkSub_cons_some hm]
        obtain ⟨hshape, -, -⟩ := matchLink_structure hm
        have hrlen := matchLink_length hm
        have hlen4 : ("<em>".data).length = 4 := rfl
        have hrest : "<em>".data <:+: rest := by
          rcases List.infix_cons_iff.mp h with hpre | hinf
          · rw [show "<em>".data = '<' :: "em>".data from rfl] at hpre
            rw [List.cons_prefix_cons] at hpre
            exact absurd hpre.1 (by decide)
          · exact hinf
        rw [hshape] at hrest
        rcases splitInfixAppend hrest with h1 | h1 | ⟨p1, p2, hP, h1n, h2n, hsuf, hpre⟩
        · have htanchor : t <:+: anchorOf t u :=
            ⟨"<a href=\"".data ++ u ++ "\">".data, "</a>".data, by simp [anchorOf]⟩
          exact (h1.trans htanchor).trans (List.prefix_append _ _).isInfix
        · rcases List.infix_cons_iff.mp h1 with hpre | h2
          · rw [show "<em>".data = '<' :: "em>".data from rfl] at hpre
            rw [List.cons_prefix_cons] at hpre
            exact absurd hpre.1 (by decide)
          rcases List.infix_cons_iff.mp h2 with hpre | h3
          · rw [show "<em>".data = '<' :: "em>".data from rfl] at hpre
            rw [List.cons_prefix_cons] at hpre
            exact absurd hpre.1 (by decide)
          rcases splitInfixAppend h3 with h4 | h4 | ⟨p1, p2, hP, h1n, h2n, hsuf, hpre⟩
          · have huanchor : u <:+: anchorOf t u :=
              ⟨"<a href=\"".data, "\">".data ++ t ++ "</a>".data, by simp [anchorOf]⟩
            exact (h4.trans huanchor).trans (List.prefix_append _ _).isInfix
          · rcases List.infix_cons_iff.mp h4 with hpre | h5
            · rw [show "<em>".data = '<' :: "em>".data from rfl] at hpre
              rw [List.cons_prefix_cons] at hpre
              exact absurd hpre.1 (by decide)
            · exact (ih r (by omega) h5).trans (List.suffix_append _ _).isInfix
          · exact (spanRightHead hP h1n h2n hpre
              (show ((')' :: r : List Char)).head? = some ')' from rfl)
              (by intro k hk1 hk2; rw [hlen4] at hk2; rcases (show k = 1 ∨ k = 2 ∨ k = 3 by omega) with rfl | rfl | rfl <;> decide)).elim
        · exact (spanRightHead hP h1n h2n hpre
            (show ((']' :: '(' :: (u ++ ')' :: r) : List Char)).head? = some ']' from rfl)
            (by intro k hk1 hk2; rw [hlen4] at hk2; rcases (show k = 1 ∨ k = 2 ∨ k = 3 by omega) with rfl | rfl | rfl <;> decide)).elim

/-! ### C10: unpaired emphasis from the single-star substitution -/

theorem count_one_split {l : List Char} {ch : Char} (h : l.count ch = 1) :
    ∃ a b, l = a ++ ch :: b ∧ ch ∉ a ∧ ch ∉ b := by
  induction l with
  | nil => simp at h
  | cons c rest ih =>
    rw [List.count_cons] at h
    by_cases hc : c = ch
    · subst hc
      rw [if_pos (show (c == c) = true by simp)] at h
      have h0 : rest.count c = 0 := by omega
      exact ⟨[], rest, rfl, by simp, List.count_eq_zero.mp h0⟩
    · rw [if_neg (show ¬ (c == ch) = true by simp [hc]), Nat.add_zero] at h
      obtain ⟨a, b, rfl, hna, hnb⟩ := ih h
      refine ⟨c :: a, b, rfl, ?_, hnb⟩
      intro hm
      rcases List.mem_cons.mp hm with h1 | h1
      · exact hc h1.symm
      · exact hna h1

theorem replace1_twoStar_noop {new : List Char} :
    ∀ {s : List Char}, s.count '*' ≤ 1 → replace1 "**".data new s = s := by
  intro s
  induction s with
  | nil => intro _; rfl
  | cons c rest ih =>
    intro h
    by_cases hp : List.isPrefixOf "**".data (c :: rest) = true
    · exfalso
      obtain ⟨r, hr⟩ := List.isPrefixOf_iff_prefix.mp hp
      rw [← hr, show ("**".data ++ r : List Char) = '*' :: '*' :: r from rfl,
        List.count_cons, List.count_cons] at h
      simp only [show (('*' : Char) == '*') = true from by decide, if_true] at h
      omega
    · have hp' : List.isPrefixOf "**".data (c :: rest) = false := by
        cases hx : List.isPrefixOf "**".data (c :: rest)
        · rfl
        · exact absurd hx hp
      have hrest : rest.count '*' ≤ 1 := by
        rw [List.count_cons] at h
        omega
      simp only [replace1, hp']
      simp [ih hrest]

theorem replace1_star_first {new : List Char} :
    ∀ (a b : List Char), '*' ∉ a →
      replace1 "*".data new (a ++ '*' :: b) = a ++ (new ++ b) := by
  intro a
  induction a with
  | nil =>
    intro b _
    simp [replace1, List.isPrefixOf]
  | cons c as ih =>
    intro b hna
    have hc : c ≠ '*' := fun he => hna (by simp [he])
    have hbeq : ('*' == c) = false := beq_eq_false_iff_ne.mpr (Ne.symm hc)
    rw [List.cons_append]
    simp only [replace1,
      show List.isPrefixOf "*".data (c :: (as ++ '*' :: b)) = false from by
        simp [List.isPrefixOf, hbeq]]
    simp only [Bool.false_eq_true, if_false]
    rw [ih b (fun hm => hna (List.mem_cons_of_mem _ hm))]
    simp

theorem replace1_star_none {new : List Char} :
    ∀ {s : List Char}, '*' ∉ s → replace1 "*".data new s = s := by
  intro s
  induction s with
  | nil => intro _; rfl
  | cons c rest ih =>
    intro h
    have hc : c ≠ '*' := fun he => h (by simp [he])
    have hbeq : ('*' == c) = false := beq_eq_false_iff_ne.mpr (Ne.symm hc)
    simp only [replace1,
      show List.isPrefixOf "*".data (c :: rest) = false from by
        simp [List.isPrefixOf, hbeq]]
    simp only [Bool.false_eq_true, if_false]
    rw [ih (fun hm => h (List.mem_cons_of_mem _ hm))]

/-- Replacing the lone `*` with `<em>` does not create a `</em>` substring
when the line had none. -/
theorem emInsert_not_close {a b : List Char}
    (hline : ¬ ("</em>".data <:+: (a ++ '*' :: b))) :
    ¬ ("</em>".data <:+: (a ++ ("<em>".data ++ b))) := by
  intro h
  have hlen : ("</em>".data).length = 5 := rfl
  have hna : ¬ ("</em>".data <:+: a) := fun hx =>
    hline (hx.trans (List.prefix_append a ('*' :: b)).isInfix)
  have hnb : ¬ ("</em>".data <:+: b) := fun hx =>
    hline (hx.trans ⟨a ++ ['*'], [], by simp⟩)
  rcases splitInfixAppend h with h1 | h1 | ⟨p1, p2, hP, h1n, h2n, hsuf, hpre⟩
  · exact hna h1
  · rcases splitInfixAppend h1 with h2 | h2 | ⟨p1, p2, hP, h1n, h2n, hsuf, hpre⟩
    · exact absurd h2 (by decide)
    · exact hnb h2
    · exact spanLeftLast hP h1n h2n hsuf
        (show ("<em>".data).getLast? = some '>' from by decide)
        (by intro k hk1 hk2; rw [hlen] at hk2; rcases (show k = 1 ∨ k = 2 ∨ k = 3 ∨ k = 4 by omega) with rfl | rfl | rfl | rfl <;> decide)
  · exact spanRightHead hP h1n h2n hpre
      (show ("<em>".data ++ b).head? = some '<' from rfl)
      (by intro k hk1 hk2; rw [hlen] at hk2; rcases (show k = 1 ∨ k = 2 ∨ k = 3 ∨ k = 4 by omega) with rfl | rfl | rfl | rfl <;> decide)

/-- Paragraph wrapping does not create a `</em>` substring either. -/
theorem wrapped_not_close {f : List Char} (hf : ¬ ("</em>".data <:+: f)) :
    ¬ ("</em>".data <:+: ("<p>".data ++ f ++ "</p>".data)) := by
  intro h
  have hlen : ("</em>".data).length = 5 := rfl
  rw [List.append_assoc] at h
  rcases splitInfixAppend h with h1 | h1 | ⟨p1, p2, hP, h1n, h2n, hsuf, hpre⟩
  · exact absurd h1 (by decide)
  · rcases splitInfixAppend h1 with h2 | h2 | ⟨p1, p2, hP, h1n, h2n, hsuf, hpre⟩
    · exact hf h2
    · exact absurd h2 (by decide)
    · exact spanRightHead hP h1n h2n hpre
        (show ("</p>".data).head? = some '<' from rfl)
        (by intro k hk1 hk2; rw [hlen] at hk2; rcases (show k = 1 ∨ k = 2 ∨ k = 3 ∨ k = 4 by omega) with rfl | rfl | rfl | rfl <;> decide)
  · exact spanLeftLast hP h1n h2n hsuf
      (show ("<p>".data).getLast? = some '>' from by decide)
      (by intro k hk1 hk2; rw [hlen] at hk2; rcases (show k = 1 ∨ k = 2 ∨ k = 3 ∨ k = 4 by omega) with rfl | rfl | rfl | rfl <;> decide)

theorem fmtInline_one_star {line : List Char}
    (hc : line.count '*' = 1) (hne : ¬ ("</em>".data <:+: line)) :
    ("<em>".data <:+: fmtInline line) ∧ ¬ ("</em>".data <:+: fmtInline line) := by
  obtain ⟨a, b, rfl, hna, hnb⟩ := count_one_split hc
  have h1 : (a ++ '*' :: b).count '*' ≤ 1 := le_of_eq hc
  unfold fmtInline
  rw [replace1_twoStar_noop h1, replace1_twoStar_noop h1,
    replace1_star_first a b hna]
  have hnostar : '*' ∉ (a ++ ("<em>".data ++ b)) := by
    intro hm
    rcases List.mem_append.mp hm with hm | hm
    · exact hna hm
    rcases List.mem_append.mp hm with hm | hm
    · exact absurd hm (by decide)
    · exact hnb hm
  rw [replace1_star_none hnostar]
  constructor
  · exact linkSub_em_preserve (a ++ ("<em>".data ++ b)).length _ le_rfl
      ⟨a, b, by simp⟩
  · intro hcon
    exact emInsert_not_close hne
      (linkSub_close_pullback (a ++ ("<em>".data ++ b)).length _ le_rfl hcon)

/-- C10 counterexample: the one-star default line `*</em>` produces
`<p><em></em></p>`, whose `<em>` has a matching `</em>` — so the claim that
every one-star default line yields an unmatched `<em>` fails when the raw
line already contains the literal text `</em>`. -/
theorem C10_counterexample :
    simple_markdown_to_html "*</em>" = "<p><em></em></p>" ∧
    "*</em>".data.count '*' = 1 ∧
    ("<em>".data <:+: "<p><em></em></p>".data) ∧
    ("</em>".data <:+: "<p><em></em></p>".data) :=
  ⟨by decide, by decide, by decide, by decide⟩

/-- C10 amended: for a default-classified, non-blank line outside a fence
with exactly one `*` character that does not already contain the literal
text `</em>`, the emitted fragment contains an opening `<em>` tag and no
`</em>` at all: the single-replacement substitution emits unpaired emphasis
markup, so well-formedness is only guaranteed for fence nesting. -/
theorem C10_unpaired_em :
    ∀ (prev : Option (List Char)) (line : List Char) (rest : List (List Char)),
      line.count '*' = 1 →
      ¬ ("</em>".data <:+: line) →
      isFence line = false →
      List.isPrefixOf "# ".data line = false →
      List.isPrefixOf "## ".data line = false →
      List.isPrefixOf "### ".data line = false →
      List.isPrefixOf "#### ".data line = false →
      isUnordered line = false →
      isOrdered line = false →
      pyStrip line ≠ [] →
      convertLines prev false (line :: rest) =
        defaultFrag line :: convertLines (some line) false rest ∧
      ("<em>".data <:+: defaultFrag line) ∧
      ¬ ("</em>".data <:+: defaultFrag line) := by
  intro prev line rest hcount hnoem hfence hh1 hh2 hh3 hh4 hul hol hblank
  obtain ⟨hem, hnem⟩ := fmtInline_one_star hcount hnoem
  refine ⟨?_, ?_, ?_⟩
  · rw [convertLines_step_outside hfence,
      processLine_default hh1 hh2 hh3 hh4 hul hol hblank]
    rfl
  · unfold defaultFrag
    split
    · exact hem
    · exact hem.trans ⟨"<p>".data, "</p>".data, rfl⟩
  · unfold defaultFrag
    split
    · exact hnem
    · exact wrapped_not_close hnem

/-- C10 witness: the line `a*b` yields `<p>a<em>b</p>` — an `<em>` with no
matching `</em>`. -/
theorem C10_witness :
    "a*b".data.count '*' = 1 ∧
    (convertLines none false ["a*b".data] =
        defaultFrag "a*b".data :: convertLines (some "a*b".data) false [] ∧
      ("<em>".data <:+: defaultFrag "a*b".data) ∧
      ¬ ("</em>".data <:+: defaultFrag "a*b".data)) :=
  ⟨by decide,
   C10_unpaired_em none "a*b".data [] (by decide) (by decide) (by decide)
     (by decide) (by decide) (by decide) (by decide) (by decide) (by decide)
     (by decide)⟩

/-! ### C8: totality -/

/-- C8: the converter is a total function: for every input string it
terminates and returns a string (in particular on the empty string, on an
unterminated fence and on malformed markers, as witnessed by the
computations elsewhere in this file). -/
theorem C8_total : ∀ s : String, ∃ t : String, simple_markdown_to_html s = t :=
  fun _ => ⟨_, rfl⟩

/-! ### C9: empty input -/

/-- C9 counterexample: the empty input converts to `<br>` (the empty line
falls into the default branch, which emits a line-break element), which is
neither empty nor whitespace-only. -/
theorem C9_counterexample :
    simple_markdown_to_html "" = "<br>" ∧
    ¬ (simple_markdown_to_html "" = "" ∨
        ∀ c ∈ (simple_markdown_to_html "").data, pySpace c = true) := by
  refine ⟨by decide, ?_⟩
  intro h
  rcases h with h | h
  · exact absurd h (by decide)
  · have := h '<' (by decide)
    exact absurd this (by decide)

/-- C9 amended: the empty input string converts, without any fault, to the
single line-break fragment `<br>` (the lone empty line is blank, so the
default case emits exactly one line-break element). -/
theorem C9_empty_input : simple_markdown_to_html "" = "<br>" := by decide
